import Mathlib

/-!
Verification of the FCP client library (message codec and connection
lifecycle).  Rust strings are modelled as `List Char`; the `HashMap` of
message fields is modelled as an association list with unique keys, with
`insertField` mirroring `HashMap::insert` (overwrite on an existing key).
-/

namespace Fcp

/-- A Rust `String` / `&str`, modelled as its character sequence. -/
abbrev Str := List Char

/-- One `BufRead::read_line` call on a char stream: returns the line read
(including the terminating newline when one is present; the whole rest of
the stream at EOF without a newline; empty at EOF) and the remaining
stream. -/
def readLineAux : Str → Str × Str
  | [] => ([], [])
  | c :: cs =>
    if c = '\n' then ([c], cs)
    else
      let p := readLineAux cs
      (c :: p.1, p.2)

/-- Rust `trim_end_matches('\n')`: removes every trailing newline. -/
def trimNewline (l : Str) : Str :=
  (l.reverse.dropWhile (fun c => c = '\n')).reverse

/-- Rust `line.find('=')` combined with the two slices
`line[..equal_sign]` and `line[equal_sign + 1..]`: splits a line at the
first `=`, returning `none` when the line has no `=`. -/
def splitFirstEq : Str → Option (Str × Str)
  | [] => none
  | c :: cs =>
    if c = '=' then some ([], cs)
    else (splitFirstEq cs).map (fun p => (c :: p.1, p.2))

theorem readLineAux_join (s : Str) :
    (readLineAux s).1 ++ (readLineAux s).2 = s := by
  induction s with
  | nil => rfl
  | cons c cs ih =>
    by_cases h : c = '\n' <;> simp [readLineAux, h, ih]

theorem readLineAux_append (l rest : Str) (h : '\n' ∉ l) :
    readLineAux (l ++ '\n' :: rest) = (l ++ ['\n'], rest) := by
  induction l with
  | nil => simp [readLineAux]
  | cons c cs ih =>
    have hc : c ≠ '\n' := fun hc => h (hc ▸ List.mem_cons_self c cs)
    have hcs : '\n' ∉ cs := fun hm => h (List.mem_cons_of_mem c hm)
    simp [readLineAux, hc, ih hcs]

theorem readLineAux_no_newline (s : Str) (h : '\n' ∉ s) :
    readLineAux s = (s, []) := by
  induction s with
  | nil => rfl
  | cons c cs ih =>
    have hc : c ≠ '\n' := fun hc => h (hc ▸ List.mem_cons_self c cs)
    have hcs : '\n' ∉ cs := fun hm => h (List.mem_cons_of_mem c hm)
    simp [readLineAux, hc, ih hcs]

theorem splitFirstEq_none_iff (l : Str) :
    splitFirstEq l = none ↔ '=' ∉ l := by
  induction l with
  | nil => simp [splitFirstEq]
  | cons c cs ih =>
    by_cases h : c = '='
    · simp [splitFirstEq, h]
    · cases hcs : splitFirstEq cs with
      | none =>
        rw [hcs] at ih
        simp [splitFirstEq, h, hcs, Ne.symm h, ih.mp rfl]
      | some p =>
        simp only [splitFirstEq, if_neg h, hcs, Option.map_some']
        constructor
        · intro hh; exact absurd hh (by simp)
        · intro hh
          exact absurd (ih.mpr (fun hm => hh (List.mem_cons_of_mem c hm))) (by simp [hcs])

theorem splitFirstEq_key_val (k v : Str) (h : '=' ∉ k) :
    splitFirstEq (k ++ '=' :: v) = some (k, v) := by
  induction k with
  | nil => simp [splitFirstEq]
  | cons c cs ih =>
    have hc : c ≠ '=' := fun hc => h (hc ▸ List.mem_cons_self c cs)
    have hcs : '=' ∉ cs := fun hm => h (List.mem_cons_of_mem c hm)
    simp [splitFirstEq, hc, ih hcs]

theorem splitFirstEq_some_eq (l k v : Str) (h : splitFirstEq l = some (k, v)) :
    l = k ++ '=' :: v ∧ '=' ∉ k := by
  induction l generalizing k v with
  | nil => simp [splitFirstEq] at h
  | cons c cs ih =>
    by_cases hc : c = '='
    · simp [splitFirstEq, hc] at h
      simp [hc, h.1, h.2.symm]
    · simp only [splitFirstEq, if_neg hc] at h
      cases hcs : splitFirstEq cs with
      | none => rw [hcs] at h; simp at h
      | some p =>
        rw [hcs] at h
        simp only [Option.map_some', Option.some.injEq] at h
        obtain ⟨hk, hv⟩ := Prod.mk.injEq .. ▸ h
        have := ih p.1 p.2 (by rw [hcs])
        constructor
        · rw [← hk, ← hv]; simp [this.1]
        · rw [← hk]
          intro hm
          rcases List.mem_cons.mp hm with h1 | h2
          · exact hc h1.symm
          · exact this.2 h2

theorem dropWhile_eq_self_of_all (p : Char → Bool) (l : Str)
    (h : ∀ c ∈ l, p c = false) : l.dropWhile p = l := by
  induction l with
  | nil => rfl
  | cons c cs _ => simp [List.dropWhile, h c (List.mem_cons_self c cs)]

theorem trimNewline_no_newline (l : Str) (h : '\n' ∉ l) :
    trimNewline l = l := by
  unfold trimNewline
  rw [dropWhile_eq_self_of_all, List.reverse_reverse]
  intro c hc
  simp only [decide_eq_false_iff_not]
  intro hceq
  exact h (hceq ▸ List.mem_reverse.mp hc)

theorem trimNewline_append_newline (l : Str) (h : '\n' ∉ l) :
    trimNewline (l ++ ['\n']) = l := by
  unfold trimNewline
  rw [List.reverse_append]
  simp only [List.reverse_cons, List.reverse_nil, List.nil_append, List.singleton_append]
  have hstep : ('\n' :: l.reverse).dropWhile (fun c => decide (c = '\n')) =
      l.reverse.dropWhile (fun c => decide (c = '\n')) := by
    simp [List.dropWhile]
  rw [hstep, dropWhile_eq_self_of_all, List.reverse_reverse]
  intro c hc
  simp only [decide_eq_false_iff_not]
  intro hceq
  exact h (hceq ▸ List.mem_reverse.mp hc)

/-- The field-reading loop of `FcpConnection::recv_message` (lib.rs lines
197-208): repeatedly read a line; a line with an `=` contributes the pair
(text before the first `=`, text after it with trailing newlines removed);
a line without an `=` (including the empty line at EOF) stops the loop.
Returns the pairs in reading order together with the unread rest of the
stream. -/
def readFields (input : Str) : List (Str × Str) × Str :=
  match hsplit : splitFirstEq (readLineAux input).1 with
  | none => ([], (readLineAux input).2)
  | some kv =>
    let r := readFields (readLineAux input).2
    ((kv.1, trimNewline kv.2) :: r.1, r.2)
termination_by input.length
decreasing_by
  have hj := readLineAux_join input
  have h1 : (readLineAux input).1 ≠ [] := by
    intro hnil
    rw [hnil] at hsplit
    simp [splitFirstEq] at hsplit
  have hlen := congrArg List.length hj
  rw [List.length_append] at hlen
  have : (readLineAux input).1.length ≠ 0 := fun hz => h1 (List.length_eq_zero.mp hz)
  omega

theorem readFields_step_none (input : Str)
    (h : splitFirstEq (readLineAux input).1 = none) :
    readFields input = ([], (readLineAux input).2) := by
  rw [readFields, h]

theorem readFields_step_some (input : Str) (k v : Str)
    (h : splitFirstEq (readLineAux input).1 = some (k, v)) :
    readFields input = ((k, trimNewline v) :: (readFields (readLineAux input).2).1,
      (readFields (readLineAux input).2).2) := by
  rw [readFields, h]

/-- `HashMap::insert` on the association-list model of the field map: if
the key is present its value is overwritten, otherwise the pair is
appended. -/
def insertField : List (Str × Str) → Str → Str → List (Str × Str)
  | [], k, v => [(k, v)]
  | (k0, v0) :: rest, k, v =>
    if k0 = k then (k, v) :: rest else (k0, v0) :: insertField rest k v

/-- `HashMap::get` on the association-list model of the field map. -/
def findField : List (Str × Str) → Str → Option Str
  | [], _ => none
  | (k0, v0) :: rest, k => if k0 = k then some v0 else findField rest k

/-- An FCP message (`FcpMessage` in lib.rs): a name and a key-value map,
the map modelled as an association list with unique keys. -/
structure FcpMessage where
  name : Str
  fields : List (Str × Str)
deriving DecidableEq, Repr

/-- `FcpMessage::create`. -/
def FcpMessage.create (name : Str) : FcpMessage :=
  { name := name, fields := [] }

/-- `FcpMessage::add_field`: inserts a field, overwriting an existing
field with the same name. -/
def FcpMessage.addField (m : FcpMessage) (k v : Str) : FcpMessage :=
  { m with fields := insertField m.fields k v }

/-- The field lines of `FcpMessage::to_field_set`: the loop pushing
`key=value` followed by a newline for every field, in the iteration order
of the map. -/
def fieldListStr : List (Str × Str) → Str
  | [] => []
  | (k, v) :: rest => k ++ '=' :: v ++ '\n' :: fieldListStr rest

/-- `FcpMessage::to_field_set`: the name, a newline, one `key=value` line
per field, and the terminator line `EndMessage`. -/
def FcpMessage.toFieldSet (m : FcpMessage) : Str :=
  m.name ++ '\n' :: fieldListStr m.fields ++ ("EndMessage\n".data)

/-- The pure core of `FcpConnection::recv_message` (lib.rs lines 193-210):
reads the name line (trailing newlines stripped), then runs the field
loop, entering each read pair into the message with `add_field`.  Returns
the message and the unread rest of the stream. -/
def recvParse (input : Str) : FcpMessage × Str :=
  let p := readLineAux input
  let f := readFields p.2
  (f.1.foldl (fun m kv => m.addField kv.1 kv.2) (FcpMessage.create (trimNewline p.1)), f.2)

/-- The error type of the library (`error::Error` in lib.rs): a wrapped
I/O error, use of an unconnected connection, or a protocol violation. -/
inductive Error where
  | IoError
  | NotConnected
  | ProtocolError
deriving DecidableEq, Repr

/-- Model of the `TcpStream` owned by a connection: the bytes the peer
will send (`input`), the bytes successfully written so far (`output`), the
byte-sequence argument of every write call issued (`writeLog`), and flags
describing the behaviour of the underlying socket: whether a write call
fails, whether a shutdown call fails, and whether the socket has been shut
down. -/
structure TcpStream where
  input : Str
  output : Str
  writeLog : List Str
  writeFails : Bool
  shutdownFails : Bool
  isShutdown : Bool
deriving DecidableEq, Repr

/-- One `write` call on the stream: the argument is logged; on success the
bytes are appended to the output, on failure (an erroring socket or a
socket already shut down) nothing is transferred.  Returns the stream and
whether the call succeeded. -/
def TcpStream.write (s : TcpStream) (bytes : Str) : TcpStream × Bool :=
  if s.writeFails || s.isShutdown then
    ({ s with writeLog := s.writeLog ++ [bytes] }, false)
  else
    ({ s with output := s.output ++ bytes, writeLog := s.writeLog ++ [bytes] }, true)

/-- One `shutdown(Both)` call on the stream: on success the socket is
marked shut down; reads on a shut-down socket yield EOF. -/
def TcpStream.shutdownBoth (s : TcpStream) : TcpStream × Bool :=
  if s.shutdownFails then (s, false) else ({ s with isShutdown := true }, true)

/-- The bytes a read on the stream can still deliver: none once the socket
has been shut down. -/
def TcpStream.avail (s : TcpStream) : Str :=
  if s.isShutdown then [] else s.input

/-- `FcpConnection` in lib.rs: host, port, and the optional stream
(`None` until `connect` stores one). -/
structure FcpConnection where
  host : Str
  port : Nat
  stream : Option TcpStream
deriving DecidableEq, Repr

/-- `FcpConnection::default`: host with the default FCP port 9481 and no
stream. -/
def FcpConnection.default (host : Str) : FcpConnection :=
  { host := host, port := 9481, stream := none }

/-- `FcpConnection::create`: host and port, no stream. -/
def FcpConnection.create (host : Str) (port : Nat) : FcpConnection :=
  { host := host, port := port, stream := none }

/-- `FcpConnection::send_message` (lib.rs lines 161-171): with no stream
stored it fails with `NotConnected`; otherwise one write call with the
full `to_field_set` encoding is issued, an I/O failure being surfaced as
an error. -/
def sendMessage (conn : FcpConnection) (m : FcpMessage) :
    FcpConnection × Except Error Unit :=
  match conn.stream with
  | none => (conn, .error .NotConnected)
  | some s =>
    let r := s.write m.toFieldSet
    ({ conn with stream := some r.1 }, if r.2 then .ok () else .error .IoError)

/-- `FcpConnection::recv_message` (lib.rs lines 189-213): with no stream
stored it fails with `NotConnected`; otherwise the message is parsed off
the stream by `recvParse` and the consumed bytes are removed from the
stream. -/
def recvMessage (conn : FcpConnection) :
    FcpConnection × Except Error FcpMessage :=
  match conn.stream with
  | none => (conn, .error .NotConnected)
  | some s =>
    let r := recvParse s.avail
    ({ conn with stream := some { s with input := r.2 } }, .ok r.1)

/-- `FcpConnection::disconnect` (lib.rs lines 141-146): with no stream
stored it returns `Ok` at once; otherwise `shutdown(Both)` is called on
the stored stream (which stays stored), its failure surfaced as an
error. -/
def disconnect (conn : FcpConnection) : FcpConnection × Except Error Unit :=
  match conn.stream with
  | none => (conn, .ok ())
  | some s =>
    let r := s.shutdownBoth
    ({ conn with stream := some r.1 }, if r.2 then .ok () else .error .IoError)

/-- The `ClientHello` handshake message built by `connect` (lib.rs lines
121-123). -/
def clientHello (clientName : Str) : FcpMessage :=
  ((FcpMessage.create "ClientHello".data).addField "Name".data clientName).addField
    "ExpectedVersion".data "2.0".data

/-- `FcpConnection::connect` after the TCP open succeeded (lib.rs lines
117-131): the freshly opened stream `s` is stored, the `ClientHello`
message is sent, one message is received, and a reply whose name is not
`NodeHello` is a `ProtocolError`. -/
def connect (conn : FcpConnection) (clientName : Str) (s : TcpStream) :
    FcpConnection × Except Error Unit :=
  let conn1 : FcpConnection := { conn with stream := some s }
  let sent := sendMessage conn1 (clientHello clientName)
  match sent.2 with
  | .error e => (sent.1, .error e)
  | .ok _ =>
    let recvd := recvMessage sent.1
    match recvd.2 with
    | .error e => (recvd.1, .error e)
    | .ok msg =>
      (recvd.1, if msg.name = "NodeHello".data then .ok () else .error .ProtocolError)

/-- The connection state of the spec's data model: `Connected` exactly
when a stream is stored (the spec's "underlying byte stream: present only
when Connected"). -/
inductive ConnState where
  | Connected
  | Disconnected
deriving DecidableEq, Repr

/-- Maps a connection to the spec's state abstraction. -/
def connState (conn : FcpConnection) : ConnState :=
  if conn.stream.isSome then .Connected else .Disconnected

/-- Joins a list of newline-free lines into a `\n`-terminated stream. -/
def encodeLines (ls : List Str) : Str :=
  (ls.map (fun l => l ++ ['\n'])).flatten

/-- Modelled from the spec's decode contract: a line containing `=` is
split at the first occurrence into the substring before it and the
substring after it. -/
def specSplitLine (l : Str) : Option (Str × Str) :=
  if '=' ∈ l then
    some (l.takeWhile (fun c => c ≠ '='), (l.dropWhile (fun c => c ≠ '=')).tail)
  else none

/-- Modelled from the spec's decode contract: the field lines are the
longest prefix of lines containing `=`, each split at its first `=`; the
first line without `=` is consumed but not kept; the remaining lines
follow it. -/
def specFields : List Str → List (Str × Str) × List Str
  | [] => ([], [])
  | l :: rest =>
    match specSplitLine l with
    | none => ([], rest)
    | some kv =>
      let r := specFields rest
      (kv :: r.1, r.2)

/-- Modelled from the spec's decode contract: the first line is the
message name, the following lines give the fields (entered with the
overwriting field insert), the terminator line is dropped. -/
def specDecode (ls : List Str) : FcpMessage × List Str :=
  match ls with
  | [] => (FcpMessage.create [], [])
  | nameLine :: rest =>
    let r := specFields rest
    (r.1.foldl (fun m kv => m.addField kv.1 kv.2) (FcpMessage.create nameLine), r.2)

theorem insertField_append_of_not_mem (l : List (Str × Str)) (k v : Str)
    (h : k ∉ l.map Prod.fst) : insertField l k v = l ++ [(k, v)] := by
  induction l with
  | nil => rfl
  | cons kv rest ih =>
    have hk : kv.1 ≠ k := by
      intro he; exact h (by simp [he.symm])
    have hrest : k ∉ rest.map Prod.fst := by
      intro hm; exact h (by simp [hm])
    simp only [insertField, if_neg hk, ih hrest, List.cons_append]

theorem foldl_insertField_append (fl acc : List (Str × Str))
    (hdisj : ∀ kv ∈ fl, kv.1 ∉ acc.map Prod.fst)
    (hnd : (fl.map Prod.fst).Nodup) :
    fl.foldl (fun a kv => insertField a kv.1 kv.2) acc = acc ++ fl := by
  induction fl generalizing acc with
  | nil => simp
  | cons kv rest ih =>
    simp only [List.foldl_cons]
    rw [insertField_append_of_not_mem acc kv.1 kv.2 (hdisj kv (List.mem_cons_self kv rest))]
    rw [ih (acc ++ [(kv.1, kv.2)])]
    · simp
    · intro kv2 hm
      simp only [List.map_append, List.mem_append] at *
      rintro (hin | hin)
      · exact hdisj kv2 (List.mem_cons_of_mem kv hm) hin
      · simp only [List.map_cons, List.map_nil, List.mem_singleton] at hin
        have : kv.1 ∉ rest.map Prod.fst := by
          simp only [List.map_cons, List.nodup_cons] at hnd
          exact hnd.1
        exact this (hin ▸ List.mem_map_of_mem Prod.fst hm)
    · simp only [List.map_cons, List.nodup_cons] at hnd
      exact hnd.2

theorem foldl_addField_fields (fl : List (Str × Str)) (m : FcpMessage) :
    fl.foldl (fun m kv => m.addField kv.1 kv.2) m =
      ⟨m.name, fl.foldl (fun a kv => insertField a kv.1 kv.2) m.fields⟩ := by
  induction fl generalizing m with
  | nil => simp
  | cons kv rest ih =>
    simp only [List.foldl_cons]
    rw [ih]
    rfl

theorem foldl_addField_create (name : Str) (fl : List (Str × Str))
    (hnd : (fl.map Prod.fst).Nodup) :
    fl.foldl (fun m kv => m.addField kv.1 kv.2) (FcpMessage.create name) = ⟨name, fl⟩ := by
  rw [foldl_addField_fields]
  simp only [FcpMessage.create]
  rw [foldl_insertField_append fl [] (by simp) hnd]
  simp

theorem endMessage_data :
    ("EndMessage\n".data : Str) = "EndMessage".data ++ '\n' :: [] := by decide

theorem readFields_terminator :
    readFields ("EndMessage\n".data) = ([], []) := by
  have hline : readLineAux ("EndMessage\n".data) = ("EndMessage\n".data, []) := by
    rw [endMessage_data, readLineAux_append _ _ (by decide)]
  apply readFields_step_none
  rw [hline]
  exact (splitFirstEq_none_iff _).mpr (by decide)

theorem readFields_encode (fl : List (Str × Str))
    (hf : ∀ kv ∈ fl, '=' ∉ kv.1 ∧ '\n' ∉ kv.1 ∧ '\n' ∉ kv.2) :
    readFields (fieldListStr fl ++ "EndMessage\n".data) = (fl, []) := by
  induction fl with
  | nil => simpa [fieldListStr] using readFields_terminator
  | cons kv rest ih =>
    obtain ⟨hk_eq, hk_nl, hv_nl⟩ := hf kv (List.mem_cons_self kv rest)
    have hline_nl : '\n' ∉ kv.1 ++ '=' :: kv.2 := by
      intro hm
      rcases List.mem_append.mp hm with h1 | h2
      · exact hk_nl h1
      · rcases List.mem_cons.mp h2 with h3 | h4
        · exact absurd h3 (by decide)
        · exact hv_nl h4
    have hshape : fieldListStr (kv :: rest) ++ "EndMessage\n".data =
        (kv.1 ++ '=' :: kv.2) ++ '\n' :: (fieldListStr rest ++ "EndMessage\n".data) := by
      rcases kv with ⟨k, v⟩
      simp [fieldListStr]
    rw [hshape]
    have hrl := readLineAux_append (kv.1 ++ '=' :: kv.2)
      (fieldListStr rest ++ "EndMessage\n".data) hline_nl
    have hsp : splitFirstEq ((kv.1 ++ '=' :: kv.2) ++ ['\n']) = some (kv.1, kv.2 ++ ['\n']) := by
      have : (kv.1 ++ '=' :: kv.2) ++ ['\n'] = kv.1 ++ '=' :: (kv.2 ++ ['\n']) := by simp
      rw [this]
      exact splitFirstEq_key_val _ _ hk_eq
    rw [readFields_step_some _ kv.1 (kv.2 ++ ['\n']) (by rw [hrl]; exact hsp)]
    rw [hrl]
    simp only [trimNewline_append_newline kv.2 hv_nl]
    rw [ih (fun kv2 hm => hf kv2 (List.mem_cons_of_mem kv hm))]

theorem recvParse_eq (input : Str) :
    recvParse input =
      ((readFields (readLineAux input).2).1.foldl (fun m kv => m.addField kv.1 kv.2)
        (FcpMessage.create (trimNewline (readLineAux input).1)),
       (readFields (readLineAux input).2).2) := rfl

/-- Round-trip core: decoding the encoding of a message with a
newline-free name, newline-free and `=`-free keys, and newline-free values
returns the message exactly, consuming the whole encoding. -/
theorem recvParse_toFieldSet (m : FcpMessage) (hname : '\n' ∉ m.name)
    (hf : ∀ kv ∈ m.fields, '=' ∉ kv.1 ∧ '\n' ∉ kv.1 ∧ '\n' ∉ kv.2)
    (hnd : (m.fields.map Prod.fst).Nodup) :
    recvParse m.toFieldSet = (m, []) := by
  rw [recvParse_eq]
  have hshape : m.toFieldSet =
      m.name ++ '\n' :: (fieldListStr m.fields ++ "EndMessage\n".data) := by
    simp [FcpMessage.toFieldSet]
  rw [hshape, readLineAux_append _ _ hname]
  dsimp only
  rw [readFields_encode m.fields hf]
  dsimp only
  rw [trimNewline_append_newline m.name hname, foldl_addField_create m.name m.fields hnd]

theorem encodeLines_nil : encodeLines [] = [] := rfl

theorem encodeLines_cons (l : Str) (ls : List Str) :
    encodeLines (l :: ls) = l ++ '\n' :: encodeLines ls := by
  simp [encodeLines]

theorem specSplitLine_eq_splitFirstEq (l : Str) :
    specSplitLine l = splitFirstEq l := by
  induction l with
  | nil => simp [specSplitLine, splitFirstEq]
  | cons c cs ih =>
    by_cases hc : c = '='
    · subst hc
      simp [specSplitLine, splitFirstEq, List.takeWhile_cons, List.dropWhile_cons]
    · have hmem : ('=' ∈ c :: cs) = ('=' ∈ cs) := by
        simp [List.mem_cons, Ne.symm hc]
      by_cases hin : '=' ∈ cs
      · have hcs : splitFirstEq cs =
            some (cs.takeWhile (fun x => x ≠ '='), (cs.dropWhile (fun x => x ≠ '=')).tail) := by
          rw [← ih]
          simp [specSplitLine, hin]
        simp only [specSplitLine, splitFirstEq, if_neg hc, hcs, Option.map_some']
        rw [if_pos (by rw [hmem]; exact hin)]
        simp [List.takeWhile_cons, List.dropWhile_cons, hc]
      · have h1 : specSplitLine (c :: cs) = none := by
          simp [specSplitLine, List.mem_cons, Ne.symm hc, hin]
        have h2 : splitFirstEq cs = none := by
          rw [← ih]; simp [specSplitLine, hin]
        simp [h1, splitFirstEq, if_neg hc, h2]

theorem readFields_encodeLines (ls : List Str) (h : ∀ l ∈ ls, '\n' ∉ l) :
    readFields (encodeLines ls) =
      ((specFields ls).1, encodeLines (specFields ls).2) := by
  induction ls with
  | nil =>
    rw [encodeLines_nil, readFields_step_none]
    · rfl
    · rfl
  | cons l rest ih =>
    have hl : '\n' ∉ l := h l (List.mem_cons_self l rest)
    have hrest : ∀ l2 ∈ rest, '\n' ∉ l2 := fun l2 hm => h l2 (List.mem_cons_of_mem l hm)
    rw [encodeLines_cons]
    have hrl := readLineAux_append l (encodeLines rest) hl
    cases hsp : splitFirstEq l with
    | none =>
      have hne : '=' ∉ l := (splitFirstEq_none_iff l).mp hsp
      have hne2 : splitFirstEq (l ++ ['\n']) = none := by
        apply (splitFirstEq_none_iff _).mpr
        intro hm
        rcases List.mem_append.mp hm with h1 | h2
        · exact hne h1
        · exact absurd (List.mem_singleton.mp h2) (by decide)
      rw [readFields_step_none _ (by rw [hrl]; exact hne2), hrl]
      simp [specFields, specSplitLine_eq_splitFirstEq, hsp]
    | some kv =>
      obtain ⟨hl_eq, hk_ne⟩ := splitFirstEq_some_eq l kv.1 kv.2 (by rw [hsp])
      have hv_nl : '\n' ∉ kv.2 := by
        intro hm
        exact hl (hl_eq ▸ List.mem_append.mpr (Or.inr (List.mem_cons_of_mem _ hm)))
      have hsp2 : splitFirstEq (l ++ ['\n']) = some (kv.1, kv.2 ++ ['\n']) := by
        rw [hl_eq]
        have : (kv.1 ++ '=' :: kv.2) ++ ['\n'] = kv.1 ++ '=' :: (kv.2 ++ ['\n']) := by simp
        rw [this]
        exact splitFirstEq_key_val _ _ hk_ne
      rw [readFields_step_some _ kv.1 (kv.2 ++ ['\n']) (by rw [hrl]; exact hsp2), hrl]
      dsimp only
      rw [ih hrest, trimNewline_append_newline kv.2 hv_nl]
      simp [specFields, specSplitLine_eq_splitFirstEq, hsp]

/-- Decode on a stream of newline-terminated lines agrees with the
line-level description of the decode contract: first line is the name,
then the longest prefix of `=`-containing lines gives the fields, the
terminator line is consumed but not kept, and the lines after it are left
unread. -/
theorem recvParse_encodeLines (ls : List Str) (h : ∀ l ∈ ls, '\n' ∉ l) :
    recvParse (encodeLines ls) =
      ((specDecode ls).1, encodeLines (specDecode ls).2) := by
  cases ls with
  | nil =>
    have h1 : readFields ([] : Str) = ([], []) := readFields_step_none ([] : Str) rfl
    have h0 : readLineAux ([] : Str) = ([], []) := rfl
    rw [recvParse_eq, encodeLines_nil, h0]
    dsimp only
    rw [h1]
    rfl
  | cons nameLine rest =>
    have hn : '\n' ∉ nameLine := h nameLine (List.mem_cons_self nameLine rest)
    have hrest : ∀ l2 ∈ rest, '\n' ∉ l2 := fun l2 hm => h l2 (List.mem_cons_of_mem nameLine hm)
    rw [recvParse_eq, encodeLines_cons, readLineAux_append nameLine (encodeLines rest) hn]
    dsimp only
    rw [readFields_encodeLines rest hrest, trimNewline_append_newline nameLine hn]
    rfl

theorem findField_insertField_self (l : List (Str × Str)) (k v : Str) :
    findField (insertField l k v) k = some v := by
  induction l with
  | nil => simp [insertField, findField]
  | cons kv rest ih =>
    rcases kv with ⟨k0, v0⟩
    by_cases hk : k0 = k
    · simp [insertField, findField, hk]
    · simp [insertField, findField, hk, ih]

theorem insertField_keys (l : List (Str × Str)) (k v : Str) :
    (insertField l k v).map Prod.fst =
      if k ∈ l.map Prod.fst then l.map Prod.fst else l.map Prod.fst ++ [k] := by
  induction l with
  | nil => simp [insertField]
  | cons kv rest ih =>
    rcases kv with ⟨k0, v0⟩
    by_cases hk : k0 = k
    · simp [insertField, hk]
    · by_cases hin : k ∈ rest.map Prod.fst
      · simp [insertField, hk, hin, ih, List.mem_cons, Ne.symm hk]
      · simp [insertField, hk, hin, ih, List.mem_cons, Ne.symm hk]

theorem insertField_keys_nodup (l : List (Str × Str)) (k v : Str)
    (h : (l.map Prod.fst).Nodup) : ((insertField l k v).map Prod.fst).Nodup := by
  rw [insertField_keys]
  by_cases hin : k ∈ l.map Prod.fst
  · simpa [hin] using h
  · simp [hin, List.nodup_append, h]

theorem insertField_overwrite (l : List (Str × Str)) (k v1 v2 : Str) :
    insertField (insertField l k v1) k v2 = insertField l k v2 := by
  induction l with
  | nil => simp [insertField]
  | cons kv rest ih =>
    rcases kv with ⟨k0, v0⟩
    by_cases hk : k0 = k
    · simp [insertField, hk]
    · simp [insertField, hk, ih]

deriving instance DecidableEq for Except

theorem sendMessage_eq (conn : FcpConnection) (s : TcpStream) (m : FcpMessage)
    (hstream : conn.stream = some s) :
    sendMessage conn m =
      ({ conn with stream := some (s.write m.toFieldSet).1 },
       if (s.write m.toFieldSet).2 then .ok () else .error .IoError) := by
  unfold sendMessage
  rw [hstream]

theorem recvMessage_eq (conn : FcpConnection) (s : TcpStream)
    (hstream : conn.stream = some s) :
    recvMessage conn =
      ({ conn with stream := some { s with input := (recvParse s.avail).2 } },
       .ok (recvParse s.avail).1) := by
  unfold recvMessage
  rw [hstream]

theorem disconnect_eq (conn : FcpConnection) (s : TcpStream)
    (hstream : conn.stream = some s) :
    disconnect conn =
      ({ conn with stream := some s.shutdownBoth.1 },
       if s.shutdownBoth.2 then .ok () else .error .IoError) := by
  unfold disconnect
  rw [hstream]

theorem connect_eq (conn : FcpConnection) (clientName : Str) (s : TcpStream)
    (hwf : s.writeFails = false) (hsd : s.isShutdown = false) :
    connect conn clientName s =
      ({ conn with stream := some { s with
            input := (recvParse s.input).2,
            output := s.output ++ (clientHello clientName).toFieldSet,
            writeLog := s.writeLog ++ [(clientHello clientName).toFieldSet] } },
       if (recvParse s.input).1.name = "NodeHello".data then .ok ()
       else .error .ProtocolError) := by
  unfold connect sendMessage recvMessage TcpStream.write TcpStream.avail
  simp [hwf, hsd]

theorem fieldListStr_append_encode (fl : List (Str × Str)) :
    fieldListStr fl ++ "EndMessage\n".data =
      encodeLines (fl.map (fun kv => kv.1 ++ '=' :: kv.2) ++ ["EndMessage".data]) := by
  induction fl with
  | nil =>
    rw [fieldListStr]
    simp [encodeLines, endMessage_data]
  | cons kv rest ih =>
    rcases kv with ⟨k, v⟩
    rw [fieldListStr]
    simp only [List.map_cons, List.cons_append, encodeLines_cons, ← ih]
    simp

/-! Concrete instances used by witnesses and counterexamples. -/

/-- A freshly opened, fully functional stream with no pending input. -/
def cxStream : TcpStream :=
  { input := [], output := [], writeLog := [], writeFails := false,
    shutdownFails := false, isShutdown := false }

/-- A connection holding `cxStream`, as after a successful TCP open. -/
def cxConn : FcpConnection :=
  { host := "node".data, port := 9481, stream := some cxStream }

/-- A minimal message. -/
def cxMsg : FcpMessage := FcpMessage.create "Test".data

/-- The round-trip witness message of the decode scenario. -/
def msgW1 : FcpMessage :=
  { name := "NodeHello".data,
    fields := [("Version".data, "2.0".data), ("Node".data, "TestNode".data)] }

/-- The line stream of the decode scenario. -/
def lsW2 : List Str :=
  ["NodeHello".data, "Version=2.0".data, "Node=TestNode".data, "EndMessage".data]

/-- A stream delivering the decode scenario bytes. -/
def streamW2 : TcpStream :=
  { input := encodeLines lsW2, output := [], writeLog := [], writeFails := false,
    shutdownFails := false, isShutdown := false }

/-- A connection holding `streamW2`. -/
def connW2 : FcpConnection :=
  { host := "node".data, port := 9481, stream := some streamW2 }

/-- A stream whose peer answers the handshake with an `Error` message. -/
def streamW5 : TcpStream :=
  { input := "Error\nEndMessage\n".data, output := [], writeLog := [],
    writeFails := false, shutdownFails := false, isShutdown := false }

/-- A message with an `=` inside a field value. -/
def msgW10 : FcpMessage :=
  { name := "M".data, fields := [("Key".data, "a=b".data)] }

/-- C1: for every Message whose name contains no newline and whose field
keys and values contain neither `=` nor newline (keys unique, as in the
`HashMap`), decoding the bytes produced by `to_field_set` with
`recv_message`'s line-reading algorithm yields a Message with the same
name and the same field mapping, consuming the whole encoding. -/
theorem C1_roundtrip (m : FcpMessage) (hname : '\n' ∉ m.name)
    (hf : ∀ kv ∈ m.fields, ('=' ∉ kv.1 ∧ '\n' ∉ kv.1) ∧ ('=' ∉ kv.2 ∧ '\n' ∉ kv.2))
    (hnd : (m.fields.map Prod.fst).Nodup) :
    recvParse m.toFieldSet = (m, []) :=
  recvParse_toFieldSet m hname
    (fun kv hm => ⟨(hf kv hm).1.1, (hf kv hm).1.2, (hf kv hm).2.2⟩) hnd

theorem C1_roundtrip_witness :
    ('\n' ∉ msgW1.name
      ∧ (∀ kv ∈ msgW1.fields, ('=' ∉ kv.1 ∧ '\n' ∉ kv.1) ∧ ('=' ∉ kv.2 ∧ '\n' ∉ kv.2))
      ∧ (msgW1.fields.map Prod.fst).Nodup)
    ∧ recvParse msgW1.toFieldSet = (msgW1, []) :=
  ⟨⟨by decide, by decide, by decide⟩,
   C1_roundtrip msgW1 (by decide) (by decide) (by decide)⟩

/-- C2: `recv_message` on a connected session whose stream delivers the
given newline-terminated lines reads the first line as the message name
(trailing newline stripped), adds a field for every following line
containing `=` (split at the first `=`, value's trailing newline
stripped), and stops at the first line without `=`, consuming that
terminator line but not storing it, returning the accumulated Message. -/
theorem C2_decode (conn : FcpConnection) (s : TcpStream) (ls : List Str)
    (hstream : conn.stream = some s) (hsd : s.isShutdown = false)
    (hinput : s.input = encodeLines ls) (hls : ∀ l ∈ ls, '\n' ∉ l) :
    recvMessage conn =
      ({ conn with stream := some { s with input := encodeLines (specDecode ls).2 } },
       .ok (specDecode ls).1) := by
  rw [recvMessage_eq conn s hstream]
  have havail : s.avail = encodeLines ls := by
    unfold TcpStream.avail
    rw [hsd, hinput]
    simp
  rw [havail, recvParse_encodeLines ls hls]

theorem C2_decode_witness :
    (connW2.stream = some streamW2 ∧ streamW2.isShutdown = false
      ∧ streamW2.input = encodeLines lsW2 ∧ (∀ l ∈ lsW2, '\n' ∉ l))
    ∧ recvMessage connW2 =
        ({ connW2 with stream := some { streamW2 with
              input := encodeLines (specDecode lsW2).2 } },
         .ok (specDecode lsW2).1) :=
  ⟨⟨rfl, rfl, rfl, by decide⟩, C2_decode connW2 streamW2 lsW2 rfl rfl rfl (by decide)⟩

/-- C3: `to_field_set` produces exactly the name line, one `key=value`
line per field in the (deterministic) iteration order of the field map,
and the literal terminator line `EndMessage`, each followed by a single
newline and with keys and values written verbatim (no escaping); on the
encode scenario message it produces exactly the scenario bytes. -/
theorem C3_encode_format (m : FcpMessage) :
    m.toFieldSet =
      encodeLines (m.name :: (m.fields.map (fun kv => kv.1 ++ '=' :: kv.2)
        ++ ["EndMessage".data]))
    ∧ FcpMessage.toFieldSet
        { name := "ClientHello".data,
          fields := [("Name".data, "TestClient".data),
                     ("ExpectedVersion".data, "2.0".data)] }
        = "ClientHello\nName=TestClient\nExpectedVersion=2.0\nEndMessage\n".data := by
  constructor
  · rw [encodeLines_cons, ← fieldListStr_append_encode]
    unfold FcpMessage.toFieldSet
    simp
  · decide

/-- C9: `add_field` with an already-present key overwrites the stored
value (last write wins) and keeps the keys unique; consequently decoding
a stream with two field lines sharing one key returns a Message whose
field map holds only the later line's value for that key. -/
theorem C9_overwrite (fs : List (Str × Str)) (k v1 v2 : Str)
    (name kk vA vB : Str) (hnd : (fs.map Prod.fst).Nodup)
    (hname : '\n' ∉ name) (hkkeq : '=' ∉ kk) (hkknl : '\n' ∉ kk)
    (hvA : '\n' ∉ vA) (hvB : '\n' ∉ vB) :
    findField (insertField fs k v2) k = some v2
    ∧ insertField (insertField fs k v1) k v2 = insertField fs k v2
    ∧ ((insertField fs k v2).map Prod.fst).Nodup
    ∧ (recvParse (encodeLines
        [name, kk ++ '=' :: vA, kk ++ '=' :: vB, "EndMessage".data])).1
        = { name := name, fields := [(kk, vB)] } := by
  refine ⟨findField_insertField_self fs k v2, insertField_overwrite fs k v1 v2,
    insertField_keys_nodup fs k v2 hnd, ?_⟩
  have hline : ∀ v : Str, '\n' ∉ v → '\n' ∉ kk ++ '=' :: v := by
    intro v hv hmem
    rcases List.mem_append.mp hmem with h1 | h2
    · exact hkknl h1
    · rcases List.mem_cons.mp h2 with h3 | h4
      · exact absurd h3 (by decide)
      · exact hv h4
  have hls : ∀ l ∈ [name, kk ++ '=' :: vA, kk ++ '=' :: vB, "EndMessage".data], '\n' ∉ l := by
    intro l hm
    simp only [List.mem_cons, List.not_mem_nil, or_false] at hm
    rcases hm with rfl | rfl | rfl | rfl
    · exact hname
    · exact hline vA hvA
    · exact hline vB hvB
    · decide
  rw [recvParse_encodeLines _ hls]
  have hA : specSplitLine (kk ++ '=' :: vA) = some (kk, vA) := by
    rw [specSplitLine_eq_splitFirstEq]
    exact splitFirstEq_key_val kk vA hkkeq
  have hB : specSplitLine (kk ++ '=' :: vB) = some (kk, vB) := by
    rw [specSplitLine_eq_splitFirstEq]
    exact splitFirstEq_key_val kk vB hkkeq
  have hEnd : specSplitLine ("EndMessage".data) = none := by
    rw [specSplitLine_eq_splitFirstEq]
    exact (splitFirstEq_none_iff _).mpr (by decide)
  simp only [specDecode, specFields, hA, hB, hEnd]
  simp [FcpMessage.create, FcpMessage.addField, insertField]

theorem C9_overwrite_witness :
    (((([] : List (Str × Str)).map Prod.fst).Nodup
      ∧ '\n' ∉ "N".data ∧ '=' ∉ "k".data ∧ '\n' ∉ "k".data
      ∧ '\n' ∉ "a".data ∧ '\n' ∉ "b".data)
      ∧ findField (insertField [] "k".data "b".data) "k".data = some "b".data
      ∧ insertField (insertField [] "k".data "a".data) "k".data "b".data
          = insertField [] "k".data "b".data
      ∧ ((insertField [] "k".data "b".data).map Prod.fst).Nodup
      ∧ (recvParse (encodeLines
          ["N".data, "k".data ++ '=' :: "a".data, "k".data ++ '=' :: "b".data,
           "EndMessage".data])).1
          = { name := "N".data, fields := [("k".data, "b".data)] }) :=
  ⟨⟨by decide, by decide, by decide, by decide, by decide, by decide⟩,
   C9_overwrite [] "k".data "a".data "b".data "N".data "k".data "a".data "b".data
     (by decide) (by decide) (by decide) (by decide) (by decide) (by decide)⟩

/-- C10: the round trip still succeeds when field values contain `=`
(only keys must avoid `=`, and name, keys and values must avoid
newlines), because decode splits each field line at the first `=` only;
this extends the spec's stated precondition. -/
theorem C10_roundtrip_eq_in_values (m : FcpMessage) (hname : '\n' ∉ m.name)
    (hf : ∀ kv ∈ m.fields, '=' ∉ kv.1 ∧ '\n' ∉ kv.1 ∧ '\n' ∉ kv.2)
    (hnd : (m.fields.map Prod.fst).Nodup) :
    recvParse m.toFieldSet = (m, []) :=
  recvParse_toFieldSet m hname hf hnd

theorem C10_roundtrip_eq_in_values_witness :
    ('\n' ∉ msgW10.name
      ∧ (∀ kv ∈ msgW10.fields, '=' ∉ kv.1 ∧ '\n' ∉ kv.1 ∧ '\n' ∉ kv.2)
      ∧ (msgW10.fields.map Prod.fst).Nodup
      ∧ '=' ∈ ("a=b".data : Str))
    ∧ recvParse msgW10.toFieldSet = (msgW10, []) :=
  ⟨⟨by decide, by decide, by decide, by decide⟩,
   C10_roundtrip_eq_in_values msgW10 (by decide) (by decide) (by decide)⟩

/-- C4: on a freshly constructed (never-connected) connection — built by
either constructor — `send_message` and `recv_message` return a
`NotConnected` error and leave the connection untouched (no stream exists,
so no I/O can be performed). -/
theorem C4_not_connected_guard (host : Str) (port : Nat) (m : FcpMessage) :
    sendMessage (FcpConnection.create host port) m =
        (FcpConnection.create host port, .error .NotConnected)
    ∧ recvMessage (FcpConnection.create host port) =
        (FcpConnection.create host port, .error .NotConnected)
    ∧ sendMessage (FcpConnection.default host) m =
        (FcpConnection.default host, .error .NotConnected)
    ∧ recvMessage (FcpConnection.default host) =
        (FcpConnection.default host, .error .NotConnected) :=
  ⟨rfl, rfl, rfl, rfl⟩

/-- C5: `connect`, after opening the stream, issues exactly one write
holding the encoding of the `ClientHello` message with exactly the fields
`Name=clientName` and `ExpectedVersion=2.0`, consumes exactly one message
from the input, keeps the stream stored and not shut down, and returns a
`ProtocolError` exactly when the received message's name is not
`NodeHello` (returning `Ok` otherwise). -/
theorem C5_connect_handshake (conn : FcpConnection) (clientName : Str)
    (s : TcpStream) (hwf : s.writeFails = false) (hsd : s.isShutdown = false) :
    clientHello clientName =
      { name := "ClientHello".data,
        fields := [("Name".data, clientName), ("ExpectedVersion".data, "2.0".data)] }
    ∧ ∃ s2 : TcpStream,
        (connect conn clientName s).1.stream = some s2
        ∧ s2.writeLog = s.writeLog ++ [(clientHello clientName).toFieldSet]
        ∧ s2.output = s.output ++ (clientHello clientName).toFieldSet
        ∧ s2.input = (recvParse s.input).2
        ∧ s2.isShutdown = false
        ∧ ((connect conn clientName s).2 = .error .ProtocolError ↔
            (recvParse s.input).1.name ≠ "NodeHello".data)
        ∧ ((connect conn clientName s).2 = .ok () ↔
            (recvParse s.input).1.name = "NodeHello".data) := by
  refine ⟨rfl, ?_⟩
  rw [connect_eq conn clientName s hwf hsd]
  refine ⟨_, rfl, rfl, rfl, rfl, hsd, ?_, ?_⟩
  · by_cases hname : (recvParse s.input).1.name = "NodeHello".data <;> simp [hname]
  · by_cases hname : (recvParse s.input).1.name = "NodeHello".data <;> simp [hname]

theorem C5_connect_handshake_witness :
    (streamW5.writeFails = false ∧ streamW5.isShutdown = false)
    ∧ (clientHello "TestClient".data =
        { name := "ClientHello".data,
          fields := [("Name".data, "TestClient".data),
                     ("ExpectedVersion".data, "2.0".data)] }
      ∧ ∃ s2 : TcpStream,
          (connect (FcpConnection.default "node".data) "TestClient".data streamW5).1.stream
              = some s2
          ∧ s2.writeLog = streamW5.writeLog ++ [(clientHello "TestClient".data).toFieldSet]
          ∧ s2.output = streamW5.output ++ (clientHello "TestClient".data).toFieldSet
          ∧ s2.input = (recvParse streamW5.input).2
          ∧ s2.isShutdown = false
          ∧ ((connect (FcpConnection.default "node".data) "TestClient".data streamW5).2
                = .error .ProtocolError ↔
              (recvParse streamW5.input).1.name ≠ "NodeHello".data)
          ∧ ((connect (FcpConnection.default "node".data) "TestClient".data streamW5).2
                = .ok () ↔
              (recvParse streamW5.input).1.name = "NodeHello".data)) :=
  ⟨⟨rfl, rfl⟩,
   C5_connect_handshake (FcpConnection.default "node".data) "TestClient".data streamW5
     rfl rfl⟩

/-- C6 counterexample: on a connected session, `disconnect` succeeds but a
following `send_message` does not return `NotConnected` (it attempts a
write on the shut-down stream and surfaces an I/O error), contradicting
the claim that every subsequent send or receive fails with
`NotConnected`. -/
theorem C6_counterexample :
    (disconnect cxConn).2 = .ok ()
    ∧ connState (disconnect cxConn).1 = ConnState.Connected
    ∧ (sendMessage (disconnect cxConn).1 cxMsg).2 = .error .IoError
    ∧ (sendMessage (disconnect cxConn).1 cxMsg).2 ≠ .error .NotConnected := by
  decide

/-- C6 amended: after a successful `disconnect` on a connected session the
stream stays stored, so the session remains in the stream-present
(Connected) state; a subsequent `send_message` does not fail with
`NotConnected` but attempts I/O on the shut-down stream and surfaces an
I/O error, and a subsequent `recv_message` does not fail with
`NotConnected` either (it reads EOF). -/
theorem C6_no_transition (conn : FcpConnection) (s : TcpStream) (m : FcpMessage)
    (hstream : conn.stream = some s) (hsf : s.shutdownFails = false) :
    (disconnect conn).2 = .ok ()
    ∧ connState (disconnect conn).1 = ConnState.Connected
    ∧ (sendMessage (disconnect conn).1 m).2 = .error .IoError
    ∧ (sendMessage (disconnect conn).1 m).2 ≠ .error .NotConnected
    ∧ (recvMessage (disconnect conn).1).2 ≠ .error .NotConnected := by
  rw [disconnect_eq conn s hstream]
  have hshut : s.shutdownBoth = ({ s with isShutdown := true }, true) := by
    unfold TcpStream.shutdownBoth
    rw [hsf]
    simp
  rw [hshut]
  refine ⟨rfl, rfl, ?_, ?_, ?_⟩
  · rw [sendMessage_eq _ { s with isShutdown := true } m rfl]
    unfold TcpStream.write
    simp
  · rw [sendMessage_eq _ { s with isShutdown := true } m rfl]
    unfold TcpStream.write
    simp
  · rw [recvMessage_eq _ { s with isShutdown := true } rfl]
    simp

theorem C6_no_transition_witness :
    (cxConn.stream = some cxStream ∧ cxStream.shutdownFails = false)
    ∧ ((disconnect cxConn).2 = .ok ()
      ∧ connState (disconnect cxConn).1 = ConnState.Connected
      ∧ (sendMessage (disconnect cxConn).1 cxMsg).2 = .error .IoError
      ∧ (sendMessage (disconnect cxConn).1 cxMsg).2 ≠ .error .NotConnected
      ∧ (recvMessage (disconnect cxConn).1).2 ≠ .error .NotConnected) :=
  ⟨⟨rfl, rfl⟩, C6_no_transition cxConn cxStream cxMsg rfl rfl⟩

/-- C7 counterexample: on a connected session, two successive `disconnect`
calls both succeed, yet the session is not in the `Disconnected`
(no-stream) state afterwards — the stream is never dropped, contradicting
the claim that both calls leave the session `Disconnected`. -/
theorem C7_counterexample :
    (disconnect cxConn).2 = .ok ()
    ∧ (disconnect (disconnect cxConn).1).2 = .ok ()
    ∧ connState (disconnect (disconnect cxConn).1).1 ≠ ConnState.Disconnected := by
  decide

/-- C7 amended: two successive `disconnect` calls produce no error
(provided the socket's shutdown does not fail) and leave the connection
state unchanged: a never-connected session stays `Disconnected` with both
calls no-ops, while a session holding a stream keeps it — the second call
re-invokes shutdown instead of being a no-op, and the session never
reaches the `Disconnected` (no-stream) state. -/
theorem C7_disconnect_twice (conn : FcpConnection)
    (h : conn.stream.all (fun s => !s.shutdownFails) = true) :
    (disconnect conn).2 = .ok ()
    ∧ (disconnect (disconnect conn).1).2 = .ok ()
    ∧ connState (disconnect (disconnect conn).1).1 = connState conn
    ∧ (conn.stream = none → disconnect (disconnect conn).1 = (conn, .ok ())) := by
  cases hs : conn.stream with
  | none =>
    have h1 : disconnect conn = (conn, .ok ()) := by
      unfold disconnect
      rw [hs]
    rw [h1, h1]
    exact ⟨rfl, rfl, rfl, fun _ => rfl⟩
  | some s =>
    have hsf : s.shutdownFails = false := by
      rw [hs] at h
      simpa using h
    have hshut : s.shutdownBoth = ({ s with isShutdown := true }, true) := by
      unfold TcpStream.shutdownBoth
      rw [hsf]
      simp
    have h1 := disconnect_eq conn s hs
    rw [hshut] at h1
    have hshut2 : TcpStream.shutdownBoth { s with isShutdown := true } =
        ({ s with isShutdown := true }, true) := by
      unfold TcpStream.shutdownBoth
      simp [hsf]
    have h2 := disconnect_eq (disconnect conn).1 { s with isShutdown := true }
      (by rw [h1])
    rw [hshut2] at h2
    rw [h1] at h2 ⊢
    rw [h2]
    refine ⟨rfl, rfl, ?_, fun hnone => ?_⟩
    · simp [connState, hs]
    · exact absurd hnone (by simp)

theorem C7_disconnect_twice_witness :
    (cxConn.stream.all (fun s => !s.shutdownFails) = true)
    ∧ ((disconnect cxConn).2 = .ok ()
      ∧ (disconnect (disconnect cxConn).1).2 = .ok ()
      ∧ connState (disconnect (disconnect cxConn).1).1 = connState cxConn
      ∧ (cxConn.stream = none → disconnect (disconnect cxConn).1 = (cxConn, .ok ()))) :=
  ⟨by decide, C7_disconnect_twice cxConn (by decide)⟩

/-- C8: on a connected session, `send_message` issues exactly one write
call whose argument is the complete `to_field_set` encoding of the
message, returns an error exactly when the underlying write fails, and
attempts no recovery or retry: on success the full encoding is on the
stream, on failure nothing was transferred and the `IoError` is
surfaced. -/
theorem C8_send_single_write (conn : FcpConnection) (s : TcpStream) (m : FcpMessage)
    (hstream : conn.stream = some s) (hsd : s.isShutdown = false) :
    ∃ s2 : TcpStream,
      (sendMessage conn m).1.stream = some s2
      ∧ s2.writeLog = s.writeLog ++ [m.toFieldSet]
      ∧ ((sendMessage conn m).2 = .ok () ↔ s.writeFails = false)
      ∧ (s.writeFails = false → s2.output = s.output ++ m.toFieldSet)
      ∧ (s.writeFails = true →
          s2.output = s.output ∧ (sendMessage conn m).2 = .error .IoError) := by
  rw [sendMessage_eq conn s m hstream]
  unfold TcpStream.write
  rw [hsd]
  cases hwf : s.writeFails with
  | false => refine ⟨_, rfl, ?_, ?_, ?_, ?_⟩ <;> simp
  | true => refine ⟨_, rfl, ?_, ?_, ?_, ?_⟩ <;> simp

theorem C8_send_single_write_witness :
    (cxConn.stream = some cxStream ∧ cxStream.isShutdown = false)
    ∧ ∃ s2 : TcpStream,
        (sendMessage cxConn cxMsg).1.stream = some s2
        ∧ s2.writeLog = cxStream.writeLog ++ [cxMsg.toFieldSet]
        ∧ ((sendMessage cxConn cxMsg).2 = .ok () ↔ cxStream.writeFails = false)
        ∧ (cxStream.writeFails = false → s2.output = cxStream.output ++ cxMsg.toFieldSet)
        ∧ (cxStream.writeFails = true →
            s2.output = cxStream.output ∧ (sendMessage cxConn cxMsg).2 = .error .IoError) :=
  ⟨⟨rfl, rfl⟩, C8_send_single_write cxConn cxStream cxMsg rfl rfl⟩

end Fcp
